import Mathlib

/-!
Shallow embedding of `mt_media_collector` (src/main.rs) and proofs about it.

Modelling conventions:
* A SHA-1 digest (`Sha1DigestBytes = [u8; 20]`) is a `List Nat` of byte values;
  the byte-array comparison `[u8; 20]::cmp` is the elementwise lexicographic
  comparison `cmpBytes`.
* Filesystem names returned by `read_dir` are `OsName`: either valid Unicode
  (a `String`) or not (`invalid`), mirroring `OsStr` whose `to_str` can fail.
* The filesystem is the inductive tree `FsNode`; paths are `List OsName`.
* Rust's stable `sort_by` is modelled by `List.mergeSort` (any two stable
  sorts with the same total preorder agree pointwise, so this is faithful).
-/

namespace MTMedia

/-- Mirrors `OsStr` entry names: valid Unicode or not (`to_str` fails). -/
inductive OsName where
  | valid (s : String)
  | invalid (tag : Nat)
  deriving DecidableEq

/-- `struct Asset { path: PathBuf, hash: Sha1DigestBytes }` (src/main.rs:21). -/
structure Asset where
  path : List OsName
  hash : List Nat
  deriving DecidableEq

/-- Elementwise lexicographic comparison of byte strings; this is
`[u8; 20]::cmp` (both arrays always have length 20 in the program). -/
def cmpBytes : List Nat → List Nat → Ordering
  | [], [] => .eq
  | [], _ :: _ => .lt
  | _ :: _, [] => .gt
  | a :: as, b :: bs =>
    match compare a b with
    | .eq => cmpBytes as bs
    | .lt => .lt
    | .gt => .gt

/-- The comparator of `ms.sort_by(|a, b| a.hash.cmp(&b.hash))` (src/main.rs:371),
turned into the boolean "less or equal" predicate used by a stable sort. -/
def assetLe (a b : Asset) : Bool :=
  cmpBytes a.hash b.hash != Ordering.gt

/-- Helper for `vec_dedup`: `a` is the most recently kept element, still being
compared against the remaining elements. -/
def vec_dedup_go (a : Asset) : List Asset → List Asset
  | [] => [a]
  | b :: rest =>
    if a.hash = b.hash then vec_dedup_go a rest
    else a :: vec_dedup_go b rest

/-- `Vec::dedup` (src/main.rs:372): remove consecutive repeated elements,
keeping the first of each run.  Equality is `impl PartialEq for Asset`
(src/main.rs:35), which compares hashes only. -/
def vec_dedup : List Asset → List Asset
  | [] => []
  | a :: rest => vec_dedup_go a rest

/-- The deduplication step of `run` (src/main.rs:371-372):
`ms.sort_by(|a, b| a.hash.cmp(&b.hash)); ms.dedup();`. -/
def sort_dedup (ms : List Asset) : List Asset :=
  vec_dedup (ms.mergeSort assetLe)

theorem cmpBytes_eq_iff : ∀ {h₁ h₂ : List Nat}, cmpBytes h₁ h₂ = .eq ↔ h₁ = h₂
  | [], [] => by simp [cmpBytes]
  | [], _ :: _ => by simp [cmpBytes]
  | _ :: _, [] => by simp [cmpBytes]
  | a :: as, b :: bs => by
    rcases h : compare a b with h' | h' | h'
    · have hab : a < b := Nat.compare_eq_lt.mp h
      simp only [cmpBytes, h]
      constructor
      · intro hx; exact absurd hx (by simp)
      · intro hx
        cases hx
        exact absurd rfl (Nat.ne_of_lt hab)
    · have hab : a = b := Nat.compare_eq_eq.mp h
      subst hab
      simp only [cmpBytes, h]
      rw [cmpBytes_eq_iff]
      constructor
      · intro hx; rw [hx]
      · intro hx; cases hx; rfl
    · have hab : b < a := Nat.compare_eq_gt.mp h
      simp only [cmpBytes, h]
      constructor
      · intro hx; exact absurd hx (by simp)
      · intro hx
        cases hx
        exact absurd rfl (Nat.ne_of_lt hab)

theorem cmpBytes_refl (h : List Nat) : cmpBytes h h = .eq :=
  cmpBytes_eq_iff.mpr rfl

theorem cmpBytes_lt_iff_gt : ∀ {h₁ h₂ : List Nat},
    cmpBytes h₁ h₂ = .lt ↔ cmpBytes h₂ h₁ = .gt
  | [], [] => by simp [cmpBytes]
  | [], _ :: _ => by simp [cmpBytes]
  | _ :: _, [] => by simp [cmpBytes]
  | a :: as, b :: bs => by
    rcases h : compare a b with h' | h' | h'
    · have hba : compare b a = .gt := Nat.compare_eq_gt.mpr (Nat.compare_eq_lt.mp h)
      simp [cmpBytes, h, hba]
    · have hab : a = b := Nat.compare_eq_eq.mp h
      subst hab
      simp only [cmpBytes, h]
      exact cmpBytes_lt_iff_gt
    · have hba : compare b a = .lt := Nat.compare_eq_lt.mpr (Nat.compare_eq_gt.mp h)
      simp [cmpBytes, h, hba]

theorem cmpBytes_lt_trans : ∀ {h₁ h₂ h₃ : List Nat},
    cmpBytes h₁ h₂ = .lt → cmpBytes h₂ h₃ = .lt → cmpBytes h₁ h₃ = .lt
  | [], [], _ => by simp [cmpBytes]
  | [], _ :: _, [] => by simp [cmpBytes]
  | [], _ :: _, _ :: _ => by simp [cmpBytes]
  | _ :: _, [], _ => by simp [cmpBytes]
  | _ :: _, _ :: _, [] => by simp [cmpBytes]
  | a :: as, b :: bs, c :: cs => by
    intro h12 h23
    rcases hab : compare a b with h' | h' | h' <;>
      rcases hbc : compare b c with h'' | h'' | h'' <;>
        simp only [cmpBytes, hab, hbc] at h12 h23 ⊢
    · have : a < c := Nat.lt_trans (Nat.compare_eq_lt.mp hab) (Nat.compare_eq_lt.mp hbc)
      simp [Nat.compare_eq_lt.mpr this]
    · have hbc' : b = c := Nat.compare_eq_eq.mp hbc
      subst hbc'
      simp [hab]
    · exact absurd h23 (by simp)
    · have hab' : a = b := Nat.compare_eq_eq.mp hab
      subst hab'
      simp [hbc]
    · have hab' : a = b := Nat.compare_eq_eq.mp hab
      subst hab'
      simp only [hbc]
      exact cmpBytes_lt_trans h12 h23
    · exact absurd h23 (by simp)
    · exact absurd h12 (by simp)
    · exact absurd h12 (by simp)
    · exact absurd h12 (by simp)

theorem cmpBytes_le_total (h₁ h₂ : List Nat) :
    cmpBytes h₁ h₂ ≠ .gt ∨ cmpBytes h₂ h₁ ≠ .gt := by
  by_cases h : cmpBytes h₁ h₂ = .gt
  · right
    have : cmpBytes h₂ h₁ = .lt := cmpBytes_lt_iff_gt.mpr h
    simp [this]
  · left; exact h

theorem cmpBytes_le_antisymm {h₁ h₂ : List Nat}
    (h : cmpBytes h₁ h₂ ≠ .gt) (h' : cmpBytes h₂ h₁ ≠ .gt) : h₁ = h₂ := by
  rcases hc : cmpBytes h₁ h₂ with h'' | h'' | h''
  · exact absurd (cmpBytes_lt_iff_gt.mp hc) h'
  · exact cmpBytes_eq_iff.mp hc
  · exact absurd hc h

theorem cmpBytes_le_trans {h₁ h₂ h₃ : List Nat}
    (h : cmpBytes h₁ h₂ ≠ .gt) (h' : cmpBytes h₂ h₃ ≠ .gt) : cmpBytes h₁ h₃ ≠ .gt := by
  rcases hc : cmpBytes h₁ h₂ with h'' | h'' | h''
  · rcases hc' : cmpBytes h₂ h₃ with h₃' | h₃' | h₃'
    · have := cmpBytes_lt_trans hc hc'
      simp [this]
    · have : h₂ = h₃ := cmpBytes_eq_iff.mp hc'
      subst this
      simp [hc]
    · exact absurd hc' h'
  · have : h₁ = h₂ := cmpBytes_eq_iff.mp hc
    subst this
    exact h'
  · exact absurd hc h

theorem assetLe_iff {a b : Asset} : assetLe a b = true ↔ cmpBytes a.hash b.hash ≠ .gt := by
  unfold assetLe
  cases cmpBytes a.hash b.hash <;> decide

theorem assetLe_trans : ∀ a b c : Asset, assetLe a b → assetLe b c → assetLe a c := by
  intro a b c hab hbc
  rw [assetLe_iff] at hab hbc ⊢
  exact cmpBytes_le_trans hab hbc

theorem assetLe_total : ∀ a b : Asset, assetLe a b || assetLe b a := by
  intro a b
  rcases cmpBytes_le_total a.hash b.hash with h | h
  · have : assetLe a b = true := assetLe_iff.mpr h
    simp [this]
  · have : assetLe b a = true := assetLe_iff.mpr h
    simp [this]

theorem vec_dedup_go_head? : ∀ (l : List Asset) (a : Asset),
    (vec_dedup_go a l).head? = some a
  | [], _ => rfl
  | b :: rest, a => by
    by_cases h : a.hash = b.hash
    · simp only [vec_dedup_go, if_pos h]
      exact vec_dedup_go_head? rest a
    · simp [vec_dedup_go, if_neg h]

theorem vec_dedup_go_sublist : ∀ (l : List Asset) (a : Asset),
    List.Sublist (vec_dedup_go a l) (a :: l)
  | [], a => by simp [vec_dedup_go]
  | b :: rest, a => by
    by_cases h : a.hash = b.hash
    · simp only [vec_dedup_go, if_pos h]
      exact (vec_dedup_go_sublist rest a).trans
        (List.cons_sublist_cons.mpr (List.sublist_cons_self b rest))
    · simp only [vec_dedup_go, if_neg h]
      exact List.cons_sublist_cons.mpr (vec_dedup_go_sublist rest b)

theorem vec_dedup_sublist : ∀ l : List Asset, List.Sublist (vec_dedup l) l
  | [] => by simp [vec_dedup]
  | a :: rest => vec_dedup_go_sublist rest a

theorem vec_dedup_go_chain' : ∀ (l : List Asset) (a : Asset),
    List.Chain' (fun x y : Asset => x.hash ≠ y.hash) (vec_dedup_go a l)
  | [], a => by simp [vec_dedup_go]
  | b :: rest, a => by
    by_cases h : a.hash = b.hash
    · simp only [vec_dedup_go, if_pos h]
      exact vec_dedup_go_chain' rest a
    · simp only [vec_dedup_go, if_neg h]
      rw [List.chain'_cons']
      refine ⟨?_, vec_dedup_go_chain' rest b⟩
      intro y hy
      rw [vec_dedup_go_head? rest b] at hy
      cases Option.mem_some_iff.mp hy
      exact h

theorem vec_dedup_chain' : ∀ l : List Asset,
    List.Chain' (fun x y : Asset => x.hash ≠ y.hash) (vec_dedup l)
  | [] => by simp [vec_dedup]
  | a :: rest => vec_dedup_go_chain' rest a

theorem vec_dedup_go_covers : ∀ (l : List Asset) (a x : Asset), x ∈ a :: l →
    ∃ y ∈ vec_dedup_go a l, y.hash = x.hash
  | [], a, x, hx => by
    rw [List.mem_singleton] at hx
    subst hx
    exact ⟨x, by simp [vec_dedup_go]⟩
  | b :: rest, a, x, hx => by
    by_cases h : a.hash = b.hash
    · simp only [vec_dedup_go, if_pos h]
      rcases List.mem_cons.mp hx with rfl | hx'
      · exact vec_dedup_go_covers rest x x (List.mem_cons_self x rest)
      · rcases List.mem_cons.mp hx' with rfl | hx''
        · obtain ⟨y, hy, hyh⟩ := vec_dedup_go_covers rest a a (List.mem_cons_self a rest)
          exact ⟨y, hy, by rw [hyh, h]⟩
        · exact vec_dedup_go_covers rest a x (List.mem_cons_of_mem a hx'')
    · simp only [vec_dedup_go, if_neg h]
      rcases List.mem_cons.mp hx with rfl | hx'
      · exact ⟨x, List.mem_cons_self x _, rfl⟩
      · obtain ⟨y, hy, hyh⟩ := vec_dedup_go_covers rest b x hx'
        exact ⟨y, List.mem_cons_of_mem a hy, hyh⟩

theorem vec_dedup_covers {l : List Asset} {x : Asset} (hx : x ∈ l) :
    ∃ y ∈ vec_dedup l, y.hash = x.hash := by
  cases l with
  | nil => cases hx
  | cons a rest => exact vec_dedup_go_covers rest a x hx

theorem vec_dedup_go_find? : ∀ (l : List Asset) (a x : Asset),
    List.Pairwise (fun u v => assetLe u v = true) (a :: l) →
    x ∈ vec_dedup_go a l →
    (a :: l).find? (fun z => z.hash == x.hash) = some x
  | [], a, x, _, hx => by
    simp only [vec_dedup_go, List.mem_singleton] at hx
    subst hx
    simp [List.find?]
  | b :: rest, a, x, hp, hx => by
    by_cases h : a.hash = b.hash
    · simp only [vec_dedup_go, if_pos h] at hx
      have hp' : List.Pairwise (fun u v => assetLe u v = true) (a :: rest) :=
        hp.sublist (List.cons_sublist_cons.mpr (List.sublist_cons_self b rest))
      have ih := vec_dedup_go_find? rest a x hp' hx
      by_cases hpa : a.hash = x.hash
      · have hpaB : (a.hash == x.hash) = true := beq_iff_eq.mpr hpa
        simp only [List.find?, hpaB] at ih ⊢
        exact ih
      · have hpaB : (a.hash == x.hash) = false := by
          simp [hpa]
        have hpbB : (b.hash == x.hash) = false := by
          rw [← h]
          exact hpaB
        simp only [List.find?, hpaB, hpbB] at ih ⊢
        exact ih
    · simp only [vec_dedup_go, if_neg h, List.mem_cons] at hx
      rcases hx with rfl | hx'
      · simp [List.find?]
      · have hp' : List.Pairwise (fun u v => assetLe u v = true) (b :: rest) :=
          hp.sublist (List.sublist_cons_self a (b :: rest))
        have ih := vec_dedup_go_find? rest b x hp' hx'
        have hxmem : x ∈ b :: rest := (vec_dedup_go_sublist rest b).subset hx'
        have hne : a.hash ≠ x.hash := by
          rcases List.mem_cons.mp hxmem with rfl | hxr
          · exact h
          · intro hax
            have hab : assetLe a b = true :=
              (List.pairwise_cons.mp hp).1 b (List.mem_cons_self b rest)
            have hbx : assetLe b x = true :=
              ((List.pairwise_cons.mp hp').1 x hxr)
            rw [assetLe_iff] at hab hbx
            rw [← hax] at hbx
            exact h (cmpBytes_le_antisymm hab hbx)
        have hneB : (a.hash == x.hash) = false := by simp [hne]
        simp only [List.find?, hneB]
        exact ih

theorem vec_dedup_find? {l : List Asset} {x : Asset}
    (hp : List.Pairwise (fun u v => assetLe u v = true) l) (hx : x ∈ vec_dedup l) :
    l.find? (fun z => z.hash == x.hash) = some x := by
  cases l with
  | nil => cases hx
  | cons a rest => exact vec_dedup_go_find? rest a x hp hx

theorem find?_eq_head?_filter (p : α → Bool) : ∀ l : List α,
    l.find? p = (l.filter p).head?
  | [] => rfl
  | a :: l => by
    cases h : p a
    · simp only [List.find?, List.filter, h]
      exact find?_eq_head?_filter p l
    · simp only [List.find?, List.filter, h, List.head?]

/-- Stability of the sort: the elements carrying one given hash appear in the
sorted list exactly as they appeared in the input list. -/
theorem filter_mergeSort_hash (ms : List Asset) (h : List Nat) :
    (ms.mergeSort assetLe).filter (fun x : Asset => x.hash == h) =
      ms.filter (fun x : Asset => x.hash == h) := by
  have hpair : (ms.filter (fun x : Asset => x.hash == h)).Pairwise
      (fun a b => assetLe a b = true) := by
    apply List.pairwise_of_forall_mem_list
    intro a ha b hb
    have ha' : a.hash = h := by
      have := (List.mem_filter.mp ha).2
      exact beq_iff_eq.mp this
    have hb' : b.hash = h := by
      have := (List.mem_filter.mp hb).2
      exact beq_iff_eq.mp this
    rw [assetLe_iff, ha', hb', cmpBytes_refl]
    simp
  have hsub : List.Sublist (ms.filter (fun x : Asset => x.hash == h)) (ms.mergeSort assetLe) :=
    List.sublist_mergeSort assetLe_trans assetLe_total hpair (List.filter_sublist ms)
  have hself : (ms.filter (fun x : Asset => x.hash == h)).filter (fun x : Asset => x.hash == h) =
      ms.filter (fun x : Asset => x.hash == h) :=
    List.filter_eq_self.mpr (fun a ha => (List.mem_filter.mp ha).2)
  have h2 : List.Sublist (ms.filter (fun x : Asset => x.hash == h))
      ((ms.mergeSort assetLe).filter (fun x : Asset => x.hash == h)) := by
    have := hsub.filter (fun x : Asset => x.hash == h)
    rwa [hself] at this
  have hperm : List.Perm ((ms.mergeSort assetLe).filter (fun x : Asset => x.hash == h))
      (ms.filter (fun x : Asset => x.hash == h)) :=
    (List.mergeSort_perm ms assetLe).filter _
  exact (h2.eq_of_length hperm.length_eq.symm).symm

theorem sort_dedup_find? {ms : List Asset} {a : Asset} (ha : a ∈ sort_dedup ms) :
    ms.find? (fun z => z.hash == a.hash) = some a := by
  have hsorted : (ms.mergeSort assetLe).Pairwise (fun u v => assetLe u v = true) :=
    List.sorted_mergeSort assetLe_trans assetLe_total ms
  have h1 : (ms.mergeSort assetLe).find? (fun z => z.hash == a.hash) = some a :=
    vec_dedup_find? hsorted ha
  rw [find?_eq_head?_filter] at h1 ⊢
  rwa [filter_mergeSort_hash ms a.hash] at h1

theorem cmpBytes_lt_of_le_ne {x y : Asset} (hle : assetLe x y = true)
    (hne : x.hash ≠ y.hash) : cmpBytes x.hash y.hash = .lt := by
  rw [assetLe_iff] at hle
  rcases hc : cmpBytes x.hash y.hash with h | h | h
  · rfl
  · exact absurd (cmpBytes_eq_iff.mp hc) hne
  · exact absurd hc hle

theorem sort_dedup_pairwise_lt (ms : List Asset) :
    List.Pairwise (fun a b : Asset => cmpBytes a.hash b.hash = .lt) (sort_dedup ms) := by
  have hsorted : (ms.mergeSort assetLe).Pairwise (fun u v => assetLe u v = true) :=
    List.sorted_mergeSort assetLe_trans assetLe_total ms
  have hle : (sort_dedup ms).Pairwise (fun u v => assetLe u v = true) :=
    hsorted.sublist (vec_dedup_sublist _)
  have hne : List.Chain' (fun x y : Asset => x.hash ≠ y.hash) (sort_dedup ms) :=
    vec_dedup_chain' _
  have hchainle : List.Chain' (fun u v => assetLe u v = true) (sort_dedup ms) :=
    hle.chain'
  have hchainlt : List.Chain' (fun a b : Asset => cmpBytes a.hash b.hash = .lt)
      (sort_dedup ms) := by
    rw [List.chain'_iff_get] at hne hchainle ⊢
    intro i hi
    exact cmpBytes_lt_of_le_ne (hchainle i hi) (hne i hi)
  haveI : IsTrans Asset (fun a b : Asset => cmpBytes a.hash b.hash = .lt) :=
    ⟨fun _ _ _ => cmpBytes_lt_trans⟩
  exact List.chain'_iff_pairwise.mp hchainlt

/-- C1: the deduplication step of `run` (src/main.rs:371-372) — a stable sort
on `contentId` followed by removal of consecutive duplicates keeping the first
occurrence — produces a canonical set in which (a) elements are in strictly
ascending `contentId` order, hence no two elements share a `contentId`;
(b) exactly the content ids present in the accumulated collection survive; and
(c) each retained Asset is the first Asset with its `contentId` in discovery
order, i.e. in the order of the accumulated collection `ms` (world mods, then
game mods, then extra paths, depth-first within each — the order in which
`run` pushes Assets). -/
theorem claim_C1_sort_dedup (ms : List Asset) :
    List.Pairwise (fun a b : Asset => cmpBytes a.hash b.hash = .lt) (sort_dedup ms)
    ∧ (∀ h : List Nat, (∃ a ∈ sort_dedup ms, a.hash = h) ↔ ∃ a ∈ ms, a.hash = h)
    ∧ ∀ a ∈ sort_dedup ms, ms.find? (fun z => z.hash == a.hash) = some a := by
  refine ⟨sort_dedup_pairwise_lt ms, ?_, fun a ha => sort_dedup_find? ha⟩
  intro h
  constructor
  · rintro ⟨a, ha, rfl⟩
    have : a ∈ ms.mergeSort assetLe := (vec_dedup_sublist _).subset ha
    exact ⟨a, (List.mergeSort_perm ms assetLe).subset this, rfl⟩
  · rintro ⟨a, ha, rfl⟩
    have ham : a ∈ ms.mergeSort assetLe := (List.mergeSort_perm ms assetLe).symm.subset ha
    obtain ⟨y, hy, hyh⟩ := vec_dedup_covers ham
    exact ⟨y, hy, hyh⟩

/-- Witness for C1 on a concrete collection containing a duplicated hash:
the asset kept for hash `[2]` is the earliest-discovered one (empty path),
as `find?` confirms. -/
theorem claim_C1_sort_dedup_w :
    (⟨[], [2]⟩ : Asset) ∈ sort_dedup [⟨[], [2]⟩, ⟨[], [1]⟩, ⟨[.valid "x"], [2]⟩]
    ∧ List.find? (fun z : Asset => z.hash == (⟨[], [2]⟩ : Asset).hash)
        [⟨[], [2]⟩, ⟨[], [1]⟩, ⟨[.valid "x"], [2]⟩] = some ⟨[], [2]⟩ := by
  have hmem : (⟨[], [2]⟩ : Asset) ∈ sort_dedup [⟨[], [2]⟩, ⟨[], [1]⟩, ⟨[.valid "x"], [2]⟩] := by
    simp +decide [sort_dedup, List.mergeSort, List.splitInTwo, List.merge, assetLe, cmpBytes,
      vec_dedup, vec_dedup_go, compare, compareOfLessAndEq]
  exact ⟨hmem,
    (claim_C1_sort_dedup [⟨[], [2]⟩, ⟨[], [1]⟩, ⟨[.valid "x"], [2]⟩]).2.2 ⟨[], [2]⟩ hmem⟩

/-- The bytes of the literal `b"MTHS\x00\x01"` (src/main.rs:160): ASCII
"MTHS", then format version major 0, minor 1. -/
def INDEX_HEADER : List Nat := [77, 84, 72, 83, 0, 1]

/-- `write_index` (src/main.rs:157-165): the byte stream written to the index
file — the 6-byte header followed by each asset's 20-byte hash, in order,
with no length prefix, no delimiters and no path data. -/
def write_index (ms : List Asset) : List Nat :=
  INDEX_HEADER ++ (ms.map Asset.hash).flatten

theorem flatten_slice : ∀ (L : List (List Nat)), (∀ l ∈ L, l.length = 20) →
    ∀ i, (h : i < L.length) → ((L.flatten).drop (20 * i)).take 20 = L[i]
  | [], _, i, h => absurd h (by simp)
  | l :: L', hl, 0, _ => by
    simp only [List.flatten_cons, Nat.mul_zero, List.drop_zero,
      List.getElem_cons_zero]
    exact List.take_left' (hl l (List.mem_cons_self l L'))
  | l :: L', hl, i + 1, h => by
    have hlen : l.length = 20 := hl l (List.mem_cons_self l L')
    have harith : 20 * (i + 1) = 20 + 20 * i := by ring
    rw [List.flatten_cons, harith, ← List.drop_drop, List.drop_left' hlen,
      List.getElem_cons_succ]
    exact flatten_slice L' (fun x hx => hl x (List.mem_cons_of_mem l hx)) i
      (by simpa using h)

theorem write_index_length (ms : List Asset)
    (hlen : ∀ a ∈ ms, a.hash.length = 20) :
    (write_index ms).length = 6 + 20 * ms.length := by
  simp only [write_index, List.length_append, List.length_flatten]
  have hsum : ((ms.map Asset.hash).map List.length).sum = 20 * ms.length := by
    induction ms with
    | nil => simp
    | cons a tl ih =>
      have ha : a.hash.length = 20 := hlen a (List.mem_cons_self a tl)
      have ih' := ih (fun x hx => hlen x (List.mem_cons_of_mem a hx))
      simp only [List.map_cons, List.sum_cons, ha, ih', List.length_cons]
      ring
  rw [hsum]
  rfl

/-- C2: for a canonical set of `N` assets whose hashes are 20 bytes long,
`write_index` emits exactly: the 4 ASCII bytes of "MTHS", then version bytes
0 (major) and 1 (minor), then the 20-byte content ids of all `N` elements in
list order, with no length prefix, no delimiters and no path data; the total
length is `6 + 20 * N`, and the i-th 20-byte group after the header is
exactly the i-th element's hash. -/
theorem claim_C2_write_index (ms : List Asset)
    (hlen : ∀ a ∈ ms, a.hash.length = 20) :
    (write_index ms).take 6 = "MTHS".data.map Char.toNat ++ [0, 1]
    ∧ (write_index ms).drop 6 = (ms.map Asset.hash).flatten
    ∧ (write_index ms).length = 6 + 20 * ms.length
    ∧ ∀ i, (hi : i < ms.length) →
        ((write_index ms).drop (6 + 20 * i)).take 20 = ms[i].hash := by
  refine ⟨?_, ?_, write_index_length ms hlen, ?_⟩
  · rw [write_index, List.take_left' (show INDEX_HEADER.length = 6 from rfl)]
    decide
  · rw [write_index, List.drop_left' (show INDEX_HEADER.length = 6 from rfl)]
  · intro i hi
    rw [write_index, ← List.drop_drop,
      List.drop_left' (show INDEX_HEADER.length = 6 from rfl)]
    have : ∀ l ∈ ms.map Asset.hash, l.length = 20 := by
      intro l hl
      obtain ⟨a, ha, rfl⟩ := List.mem_map.mp hl
      exact hlen a ha
    have hslice := flatten_slice (ms.map Asset.hash) this i (by simpa using hi)
    rw [hslice]
    simp

/-- Witness for C2 on a concrete singleton canonical set with a 20-byte hash. -/
theorem claim_C2_write_index_w :
    (∀ a ∈ [(⟨[], List.replicate 20 7⟩ : Asset)], a.hash.length = 20)
    ∧ (write_index [(⟨[], List.replicate 20 7⟩ : Asset)]).length = 6 + 20 * 1 := by
  have hlen : ∀ a ∈ [(⟨[], List.replicate 20 7⟩ : Asset)], a.hash.length = 20 := by
    decide
  exact ⟨hlen,
    (claim_C2_write_index [(⟨[], List.replicate 20 7⟩ : Asset)] hlen).2.2.1⟩

/-- `enum AssetCopyMode` (src/main.rs:65-70). -/
inductive AssetCopyMode where
  | symlink
  | hardlink
  | copy
  | none
  deriving DecidableEq

/-- The compile-time platform that selects which `symlink_file` body exists:
`#[cfg(unix)]`, `#[cfg(windows)]`, or `#[cfg(not(any(unix, windows)))]`
(src/main.rs:173-187). -/
inductive Platform where
  | unix
  | windows
  | other
  deriving DecidableEq

/-- Model of `std::io::ErrorKind` (only the kinds relevant here;
`otherKind` is `ErrorKind::Other`). -/
inductive IoErrKind where
  | notFound
  | permissionDenied
  | otherKind
  deriving DecidableEq

/-- Model of `std::io::Error`: a kind plus a message. -/
structure IoErr where
  kind : IoErrKind
  msg : String
  deriving DecidableEq

/-- Model of `ini::ini::Error` (reduced to its message). -/
structure IniErr where
  msg : String
  deriving DecidableEq

/-- `enum Error` (src/main.rs:42-45): the program's top-level error type has
exactly two variants, `Io(io::Error)` and `Ini(ini::Error)`. -/
inductive Error where
  | ioErr (e : IoErr)
  | iniErr (e : IniErr)
  deriving DecidableEq

/-- `impl From<io::Error> for Error` (src/main.rs:56-58), applied by the `?`
operator in `run`. -/
def Error.fromIoErr (e : IoErr) : Error := Error.ioErr e

/-- Whether a top-level error is the `Io` variant. -/
def Error.isIoErrB : Error → Bool
  | .ioErr _ => true
  | .iniErr _ => false

/-- Hex digit of a nibble value, lowercase (as `format "{:02x}"` produces). -/
def hexDigit (n : Nat) : Char :=
  if n < 10 then Char.ofNat (48 + n) else Char.ofNat (87 + n)

/-- The two lowercase hex digits of one byte (`format "{:02x}"`; a `u8` is
below 256, so the width is exactly two). -/
def byteToHex (b : Nat) : String :=
  ⟨[hexDigit (b / 16), hexDigit (b % 16)]⟩

/-- `to_hex` (src/main.rs:73-75): lowercase hex encoding of a byte string. -/
def to_hex (input : List Nat) : String :=
  String.join (input.map byteToHex)

/-- The contents of the output directory: an association list from entry
name (the `to_hex` file name) to the entry's contents, of arbitrary type. -/
abbrev DestFs (V : Type) := List (String × V)

variable {V : Type}

/-- `to_path.exists()` (src/main.rs:198) on the modelled output directory. -/
def fs_exists (s : DestFs V) (name : String) : Bool :=
  (s.lookup name).isSome

/-- The placement primitives `copy_assets` dispatches on, as abstract
functions from the source asset and the output-directory state to the new
state or an `io::Error`: `fs::copy` (wrapped by `copy_no_result`),
`fs::hard_link`, and the per-platform symlink primitive
(`std::os::unix::fs::symlink` resp. `std::os::windows::fs::symlink_file`). -/
structure CopyEnv (V : Type) where
  platform : Platform
  symlinkPrim : Asset → DestFs V → Except IoErr (DestFs V)
  hardlinkPrim : Asset → DestFs V → Except IoErr (DestFs V)
  copyPrim : Asset → DestFs V → Except IoErr (DestFs V)

/-- `symlink_file` (src/main.rs:173-187): the OS primitive on unix and
windows; on any other platform, the stub that always fails with
`io::Error::new(ErrorKind::Other, "Symlinking not supported on this platform!")`. -/
def symlink_file (env : CopyEnv V) : Asset → DestFs V → Except IoErr (DestFs V) :=
  match env.platform with
  | .unix => env.symlinkPrim
  | .windows => env.symlinkPrim
  | .other => fun _ _ =>
      .error ⟨IoErrKind.otherKind, "Symlinking not supported on this platform!"⟩

/-- The loop of `copy_assets` (src/main.rs:196-201): for each asset, if
`outputDir/to_hex(hash)` does not yet exist, invoke the selected placement
function; the `?` operator makes the first failure return immediately.
The state is returned alongside the (first) error because filesystem
mutations made before a failure persist. -/
def copy_assets_loop (f : Asset → DestFs V → Except IoErr (DestFs V)) :
    List Asset → DestFs V → DestFs V × Option IoErr
  | [], s => (s, none)
  | a :: rest, s =>
    if fs_exists s (to_hex a.hash) then copy_assets_loop f rest s
    else
      match f a s with
      | .error e => (s, some e)
      | .ok s' => copy_assets_loop f rest s'

/-- `copy_assets` (src/main.rs:168-203): select the placement function from
the mode (`None` returns `Ok(())` before the loop), then run the loop. -/
def copy_assets (env : CopyEnv V) (ms : List Asset) (mode : AssetCopyMode)
    (s : DestFs V) : DestFs V × Option IoErr :=
  match mode with
  | .none => (s, none)
  | .symlink => copy_assets_loop (symlink_file env) ms s
  | .hardlink => copy_assets_loop env.hardlinkPrim ms s
  | .copy => copy_assets_loop env.copyPrim ms s

/-- A placement primitive is local when, on success, it changes no
output-directory entry other than the one named after its asset's hash —
true of `fs::copy`, `fs::hard_link` and the symlink primitives, which only
create the destination path they are handed. -/
def LocalPrim (f : Asset → DestFs V → Except IoErr (DestFs V)) : Prop :=
  ∀ a s s', f a s = .ok s' →
    ∀ n, n ≠ to_hex a.hash → s'.lookup n = s.lookup n

/-- A placement primitive creates its destination entry on success. -/
def CreatesPrim (f : Asset → DestFs V → Except IoErr (DestFs V)) : Prop :=
  ∀ a s s', f a s = .ok s' → (s'.lookup (to_hex a.hash)).isSome

theorem symlink_file_local (env : CopyEnv V) (h : LocalPrim env.symlinkPrim) :
    LocalPrim (symlink_file env) := by
  intro a s s' hok n hn
  unfold symlink_file at hok
  rcases hp : env.platform with h' | h' | h' <;> rw [hp] at hok
  · exact h a s s' hok n hn
  · exact h a s s' hok n hn
  · cases hok

theorem copy_assets_loop_skip (f : Asset → DestFs V → Except IoErr (DestFs V))
    (a : Asset) (rest : List Asset) (s : DestFs V)
    (hex : fs_exists s (to_hex a.hash) = true) :
    copy_assets_loop f (a :: rest) s = copy_assets_loop f rest s := by
  simp [copy_assets_loop, hex]

theorem copy_assets_loop_preserves (f : Asset → DestFs V → Except IoErr (DestFs V))
    (hf : LocalPrim f) :
    ∀ (ms : List Asset) (s : DestFs V) (n : String), (s.lookup n).isSome →
      ((copy_assets_loop f ms s).1).lookup n = s.lookup n
  | [], _, _, _ => rfl
  | a :: rest, s, n, hns => by
    by_cases hex : fs_exists s (to_hex a.hash) = true
    · rw [copy_assets_loop_skip f a rest s hex]
      exact copy_assets_loop_preserves f hf rest s n hns
    · rw [Bool.not_eq_true] at hex
      simp only [copy_assets_loop, hex, Bool.false_eq_true, if_false]
      cases hfa : f a s with
      | error e => rfl
      | ok s' =>
        have hneq : n ≠ to_hex a.hash := by
          intro hn
          rw [hn] at hns
          rw [show fs_exists s (to_hex a.hash) = (s.lookup (to_hex a.hash)).isSome
            from rfl, hns] at hex
          cases hex
        have hpres := hf a s s' hfa n hneq
        have hns' : (s'.lookup n).isSome := by rw [hpres]; exact hns
        rw [copy_assets_loop_preserves f hf rest s' n hns', hpres]

theorem copy_assets_loop_places (f : Asset → DestFs V → Except IoErr (DestFs V))
    (hc : CreatesPrim f) (hl : LocalPrim f) :
    ∀ (ms : List Asset) (s : DestFs V), (copy_assets_loop f ms s).2 = none →
      ∀ a ∈ ms, (((copy_assets_loop f ms s).1).lookup (to_hex a.hash)).isSome
  | [], _, _, a, ha => absurd ha (by simp)
  | b :: rest, s, hok, a, ha => by
    by_cases hex : fs_exists s (to_hex b.hash) = true
    · rw [copy_assets_loop_skip f b rest s hex] at hok ⊢
      rcases List.mem_cons.mp ha with rfl | ha'
      · have hbs : (s.lookup (to_hex a.hash)).isSome := hex
        rw [copy_assets_loop_preserves f hl rest s _ hbs]
        exact hbs
      · exact copy_assets_loop_places f hc hl rest s hok a ha'
    · rw [Bool.not_eq_true] at hex
      simp only [copy_assets_loop, hex, Bool.false_eq_true, if_false] at hok ⊢
      cases hfa : f b s with
      | error e => rw [hfa] at hok; cases hok
      | ok s' =>
        rw [hfa] at hok
        have hok' : (copy_assets_loop f rest s').2 = none := hok
        rcases List.mem_cons.mp ha with rfl | ha'
        · have hbs' : (s'.lookup (to_hex a.hash)).isSome := hc a s s' hfa
          show ((copy_assets_loop f rest s').1.lookup (to_hex a.hash)).isSome = true
          rw [copy_assets_loop_preserves f hl rest s' _ hbs']
          exact hbs'
        · show ((copy_assets_loop f rest s').1.lookup (to_hex a.hash)).isSome = true
          exact copy_assets_loop_places f hc hl rest s' hok' a ha'

/-- Concrete environment for C3: copying the asset with hash `[1]` fails
with a permission error; copying any other asset succeeds and records the
destination entry. -/
def c3_env : CopyEnv (List Nat) where
  platform := .unix
  symlinkPrim := fun _ s => .ok s
  hardlinkPrim := fun _ s => .ok s
  copyPrim := fun a s =>
    if a.hash = [1] then .error ⟨IoErrKind.permissionDenied, "denied"⟩
    else .ok ((to_hex a.hash, a.hash) :: s)

def c3_a1 : Asset := ⟨[.valid "m1"], [1]⟩

def c3_a2 : Asset := ⟨[.valid "m2"], [2]⟩

/-- C3 counterexample: with two assets missing from the output directory,
where placing the first fails and placing the second would succeed,
`copy_assets` (src/main.rs:196-201) returns the first error immediately and
the second asset is never placed — the output directory stays empty.  The
`?` operator in the loop makes a single placement failure block the
placement attempts for all remaining assets, so the failure is not isolated
as the claim states. -/
theorem claim_C3_counterexample :
    copy_assets c3_env [c3_a1, c3_a2] .copy [] =
      ([], some ⟨IoErrKind.permissionDenied, "denied"⟩)
    ∧ c3_env.copyPrim c3_a2 [] = .ok [(to_hex c3_a2.hash, c3_a2.hash)]
    ∧ fs_exists (copy_assets c3_env [c3_a1, c3_a2] .copy []).1
        (to_hex c3_a2.hash) = false := by
  refine ⟨by decide, by rfl, by decide⟩

/-- C3 (amended): a placement failure for one asset aborts `copy_assets`
immediately: the error is reported (so the run ends in failure) but the
remaining assets in the canonical set are NOT attempted, in each of the
three active placement modes. -/
theorem claim_C3_abort (env : CopyEnv V) (a : Asset) (rest : List Asset)
    (s : DestFs V) (e : IoErr)
    (hnew : fs_exists s (to_hex a.hash) = false) :
    (env.copyPrim a s = .error e →
      copy_assets env (a :: rest) .copy s = (s, some e))
    ∧ (env.hardlinkPrim a s = .error e →
      copy_assets env (a :: rest) .hardlink s = (s, some e))
    ∧ (symlink_file env a s = .error e →
      copy_assets env (a :: rest) .symlink s = (s, some e)) := by
  refine ⟨?_, ?_, ?_⟩ <;> intro hf <;>
    simp [copy_assets, copy_assets_loop, hnew, hf]

/-- Witness for the amended C3 at the concrete failing environment. -/
theorem claim_C3_abort_w :
    fs_exists ([] : DestFs (List Nat)) (to_hex c3_a1.hash) = false
    ∧ c3_env.copyPrim c3_a1 [] = .error ⟨IoErrKind.permissionDenied, "denied"⟩
    ∧ copy_assets c3_env [c3_a1, c3_a2] .copy [] =
        ([], some ⟨IoErrKind.permissionDenied, "denied"⟩) :=
  ⟨by decide, by rfl,
    (claim_C3_abort c3_env c3_a1 [c3_a2] [] ⟨IoErrKind.permissionDenied, "denied"⟩
      (by decide)).1 (by rfl)⟩

/-- C4: `copy_assets` checks `to_path.exists()` before placing each asset
(src/main.rs:198); (a) an asset whose destination name already exists is
skipped — the run continues on the rest with the directory untouched and no
failure; (b) provided the placement primitives only create their own
destination entry (true of `fs::copy`, `fs::hard_link` and symlinking),
every entry that existed before the run is byte-for-byte unchanged after
it; (c) on a run that reports no error, every asset of the canonical set
has its destination entry afterwards — a re-run places exactly the missing
names. -/
theorem claim_C4_idempotent (env : CopyEnv V) (mode : AssetCopyMode)
    (hsym : LocalPrim env.symlinkPrim) (hhard : LocalPrim env.hardlinkPrim)
    (hcopy : LocalPrim env.copyPrim) :
    (∀ (a : Asset) (rest : List Asset) (s : DestFs V),
      fs_exists s (to_hex a.hash) = true →
      copy_assets env (a :: rest) mode s = copy_assets env rest mode s)
    ∧ (∀ (ms : List Asset) (s : DestFs V) (n : String),
      (s.lookup n).isSome →
      ((copy_assets env ms mode s).1).lookup n = s.lookup n)
    ∧ (∀ f, CreatesPrim f → LocalPrim f →
      ∀ (ms : List Asset) (s : DestFs V), (copy_assets_loop f ms s).2 = none →
      ∀ a ∈ ms, (((copy_assets_loop f ms s).1).lookup (to_hex a.hash)).isSome) := by
  refine ⟨?_, ?_, fun f hc hl => copy_assets_loop_places f hc hl⟩
  · intro a rest s hex
    cases mode with
    | none => rfl
    | symlink => exact copy_assets_loop_skip _ a rest s hex
    | hardlink => exact copy_assets_loop_skip _ a rest s hex
    | copy => exact copy_assets_loop_skip _ a rest s hex
  · intro ms s n hns
    cases mode with
    | none => rfl
    | symlink => exact copy_assets_loop_preserves _ (symlink_file_local env hsym) ms s n hns
    | hardlink => exact copy_assets_loop_preserves _ hhard ms s n hns
    | copy => exact copy_assets_loop_preserves _ hcopy ms s n hns

/-- Concrete environment for the C4 witness: every primitive succeeds and
prepends the destination entry. -/
def c4_env : CopyEnv (List Nat) where
  platform := .unix
  symlinkPrim := fun a s => .ok ((to_hex a.hash, a.hash) :: s)
  hardlinkPrim := fun a s => .ok ((to_hex a.hash, a.hash) :: s)
  copyPrim := fun a s => .ok ((to_hex a.hash, a.hash) :: s)

def c4_a : Asset := ⟨[.valid "p"], [1]⟩

def c4_b : Asset := ⟨[.valid "q"], [2]⟩

/-- Witness for C4: with `to_hex [1]` already present (holding bytes `[9]`),
the first asset is skipped, and after the whole run the pre-existing entry
still holds `[9]` — not overwritten by the asset's own bytes. -/
theorem claim_C4_idempotent_w :
    LocalPrim c4_env.copyPrim
    ∧ fs_exists [(to_hex c4_a.hash, [9])] (to_hex c4_a.hash) = true
    ∧ copy_assets c4_env [c4_a, c4_b] .copy [(to_hex c4_a.hash, [9])] =
        copy_assets c4_env [c4_b] .copy [(to_hex c4_a.hash, [9])]
    ∧ ((copy_assets c4_env [c4_a, c4_b] .copy [(to_hex c4_a.hash, [9])]).1).lookup
        (to_hex c4_a.hash) = some [9] := by
  have hloc : LocalPrim c4_env.copyPrim := by
    intro a s s' hok n hn
    cases hok
    have hb : (n == to_hex a.hash) = false := beq_eq_false_iff_ne.mpr hn
    simp [List.lookup, hb]
  refine ⟨hloc, by decide, ?_, ?_⟩
  · exact (claim_C4_idempotent c4_env .copy hloc hloc hloc).1 c4_a [c4_b]
      [(to_hex c4_a.hash, [9])] (by decide)
  · rw [(claim_C4_idempotent c4_env .copy hloc hloc hloc).2.1 [c4_a, c4_b]
      [(to_hex c4_a.hash, [9])] (to_hex c4_a.hash) (by decide)]
    decide

/-- Concrete environment for C5: a platform with no symlink primitive. -/
def c5_env : CopyEnv (List Nat) where
  platform := .other
  symlinkPrim := fun _ s => .ok s
  hardlinkPrim := fun _ s => .ok s
  copyPrim := fun _ s => .ok s

/-- C5 counterexample: on a platform lacking the symlink primitive a
symlink-mode run does fail outright, but the error it fails with is an
ordinary `io::Error` — kind `Other`, message "Symlinking not supported on
this platform!" (src/main.rs:183-187) — which `run` wraps as `Error::Io`.
It is not a distinct `PlatformUnsupported` error kind: `enum Error`
(src/main.rs:42-45) has no such variant. -/
theorem claim_C5_counterexample :
    copy_assets c5_env [⟨[], [1]⟩] .symlink [] =
      ([], some ⟨IoErrKind.otherKind, "Symlinking not supported on this platform!"⟩)
    ∧ (Error.fromIoErr
        ⟨IoErrKind.otherKind, "Symlinking not supported on this platform!"⟩).isIoErrB
      = true :=
  ⟨by decide, rfl⟩

/-- C5 (amended): when symlink placement is requested on a platform lacking
the primitive, the run fails outright on the first asset needing placement —
with the `io::Error` of kind `Other` and the message "Symlinking not
supported on this platform!" — and never falls back to any other placement
primitive (the conclusion holds for arbitrary copy and hardlink primitives);
moreover every value of the top-level `Error` type is `Io` or `Ini`, so no
distinct `PlatformUnsupported` kind exists. -/
theorem claim_C5_platform (sp hp cp : Asset → DestFs V → Except IoErr (DestFs V))
    (a : Asset) (rest : List Asset) (s : DestFs V)
    (hnew : fs_exists s (to_hex a.hash) = false) :
    copy_assets ⟨Platform.other, sp, hp, cp⟩ (a :: rest) .symlink s =
      (s, some ⟨IoErrKind.otherKind, "Symlinking not supported on this platform!"⟩)
    ∧ ∀ e : Error, (∃ x, e = Error.ioErr x) ∨ ∃ x, e = Error.iniErr x := by
  constructor
  · simp [copy_assets, copy_assets_loop, hnew, symlink_file]
  · intro e
    cases e with
    | ioErr x => exact Or.inl ⟨x, rfl⟩
    | iniErr x => exact Or.inr ⟨x, rfl⟩

/-- Witness for the amended C5 at a concrete asset and empty output
directory. -/
theorem claim_C5_platform_w :
    fs_exists ([] : DestFs (List Nat)) (to_hex (⟨[], [1]⟩ : Asset).hash) = false
    ∧ copy_assets
        (⟨Platform.other, fun _ s => .ok s, fun _ s => .ok s, fun _ s => .ok s⟩ :
          CopyEnv (List Nat))
        [⟨[], [1]⟩] .symlink [] =
      ([], some ⟨IoErrKind.otherKind, "Symlinking not supported on this platform!"⟩) :=
  ⟨by decide,
    (claim_C5_platform (fun _ s => .ok s) (fun _ s => .ok s) (fun _ s => .ok s)
      ⟨[], [1]⟩ [] [] (by decide)).1⟩

/-- `str::starts_with` (a byte-prefix test), on the character-list view of
a Lean `String`; for the ASCII pattern used here the byte test and the
character test coincide. -/
def starts_with (s p : String) : Bool :=
  p.data.isPrefixOf s.data

/-- `get_mod_list` (src/main.rs:206-219), applied to the general section of
`world.mt` as an association list from keys to values: keep every entry
whose key starts with `load_mod_` and whose value is exactly `"true"`
(case-sensitive), and return the part of the key after the prefix
(`key.split_at(9)` — 9 is the byte length of `load_mod_`; under the
`starts_with` guard this equals dropping the first 9 characters, the prefix
being ASCII). -/
def get_mod_list : List (String × String) → List String
  | [] => []
  | (key, value) :: rest =>
    if ¬ starts_with key "load_mod_" ∨ value ≠ "true" then get_mod_list rest
    else key.drop 9 :: get_mod_list rest

theorem starts_with_append (t : String) :
    starts_with ("load_mod_" ++ t) "load_mod_" = true := by
  rw [starts_with, List.isPrefixOf_iff_prefix, String.data_append]
  exact ⟨t.data, rfl⟩

theorem eq_append_drop_of_starts_with {k : String}
    (h : starts_with k "load_mod_" = true) : k = "load_mod_" ++ k.drop 9 := by
  rw [starts_with, List.isPrefixOf_iff_prefix] at h
  obtain ⟨t, ht⟩ := h
  apply String.ext
  rw [String.data_append, String.data_drop, ← ht,
    List.drop_left' (show ("load_mod_".data).length = 9 from rfl)]

theorem drop_nine_append (name : String) : ("load_mod_" ++ name).drop 9 = name := by
  apply String.ext
  rw [String.data_drop, String.data_append,
    List.drop_left' (show ("load_mod_".data).length = 9 from rfl)]

/-- C6: `get_mod_list` returns exactly the names `<name>` for which the key
`load_mod_<name>` is present with the literal, case-sensitive value
`"true"`; a key with any other value, or an absent key, leaves that name
out of the result. -/
theorem claim_C6_get_mod_list (sec : List (String × String)) (name : String) :
    name ∈ get_mod_list sec ↔ ("load_mod_" ++ name, "true") ∈ sec := by
  induction sec with
  | nil => simp [get_mod_list]
  | cons kv rest ih =>
    obtain ⟨k, v⟩ := kv
    by_cases hs : starts_with k "load_mod_" = true
    · by_cases hv : v = "true"
      · subst hv
        rw [get_mod_list, if_neg (by simp [hs]), List.mem_cons, List.mem_cons, ih]
        constructor
        · rintro (rfl | h)
          · exact Or.inl (by rw [← eq_append_drop_of_starts_with hs])
          · exact Or.inr h
        · rintro (heq | h)
          · have hk : "load_mod_" ++ name = k := (Prod.ext_iff.mp heq).1
            have hn : name = k.drop 9 := by rw [← hk, drop_nine_append]
            exact Or.inl hn
          · exact Or.inr h
      · rw [get_mod_list, if_pos (Or.inr hv), ih]
        constructor
        · exact fun h => List.mem_cons_of_mem _ h
        · intro h
          rcases List.mem_cons.mp h with heq | h'
          · exact absurd (Prod.ext_iff.mp heq).2.symm hv
          · exact h'
    · rw [get_mod_list, if_pos (Or.inl hs), ih]
      constructor
      · exact fun h => List.mem_cons_of_mem _ h
      · intro h
        rcases List.mem_cons.mp h with heq | h'
        · have hk : "load_mod_" ++ name = k := (Prod.ext_iff.mp heq).1
          exact absurd (by rw [← hk]; exact starts_with_append name) hs
        · exact h'

/-- Witness for C6 on a concrete configuration section: `a` is enabled,
`b` has value `"false"`, `c` has value `"True"` (wrong case), and an
unrelated key is ignored. -/
theorem claim_C6_get_mod_list_w :
    "a" ∈ get_mod_list
      [("load_mod_a", "true"), ("load_mod_b", "false"), ("load_mod_c", "True"),
        ("gameid", "minetest")]
    ∧ get_mod_list
      [("load_mod_a", "true"), ("load_mod_b", "false"), ("load_mod_c", "True"),
        ("gameid", "minetest")] = ["a"] :=
  ⟨(claim_C6_get_mod_list
      [("load_mod_a", "true"), ("load_mod_b", "false"), ("load_mod_c", "True"),
        ("gameid", "minetest")] "a").mpr (by decide),
    by decide⟩

/-- A node of the modelled filesystem: a file with its byte contents, or a
directory with its entries in `read_dir` enumeration order. -/
inductive FsNode where
  | file (content : List Nat)
  | dir (entries : List (OsName × FsNode))

/-- `path.join(name).exists()` (src/main.rs:136,138): whether a directory
listing has an entry — file or directory — with the given Unicode name. -/
def hasEntry (es : List (OsName × FsNode)) (name : String) : Bool :=
  es.any (fun e => e.1 == OsName.valid name)

/-- `path.join(name).is_dir()` (src/main.rs:123) together with the listing
of that subdirectory, when it exists and is a directory. -/
def getDir (es : List (OsName × FsNode)) (name : String) :
    Option (List (OsName × FsNode)) :=
  match es.find? (fun e => e.1 == OsName.valid name) with
  | some (_, FsNode.dir es') => some es'
  | _ => none

/-- `search_media_dir` (src/main.rs:107-116): one Asset per direct file
entry (`pb.is_file()`) of a media directory, in enumeration order;
subdirectories of the media directory are not descended into.  `H`
abstracts `hash_file`. -/
def search_media_dir (H : List Nat → List Nat) (path : List OsName) :
    List (OsName × FsNode) → List Asset
  | [] => []
  | (n, FsNode.file c) :: rest => ⟨path ++ [n], H c⟩ :: search_media_dir H path rest
  | (_, FsNode.dir _) :: rest => search_media_dir H path rest

/-- `static MEDIA_DIRS` (src/main.rs:120). -/
def MEDIA_DIRS : List String := ["textures", "models", "sounds"]

/-- `search_mod_dir` (src/main.rs:119-128): for each of the fixed media
folder names, in that order, if the mod directory has a subdirectory of
that name, collect its direct files. -/
def search_mod_dir (H : List Nat → List Nat) (path : List OsName)
    (es : List (OsName × FsNode)) : List Asset :=
  (MEDIA_DIRS.map (fun d =>
    match getDir es d with
    | some es' => search_media_dir H (path ++ [OsName.valid d]) es'
    | none => [])).flatten

/-- Failure of the tree walk: an `io::Error` propagated by `?`, or a panic
raised by `.expect(...)` — which aborts the process instead of returning. -/
inductive WalkFail where
  | ioFail (e : IoErr)
  | panicked (msg : String)
  deriving DecidableEq

/-- Sequencing of one entry's result with the rest of the walk: the `?`
operator propagates the first error; on success the assets accumulate in
order (the Rust code pushes into the shared `ms` vector). -/
def walkCons (sub r : Except WalkFail (List Asset)) : Except WalkFail (List Asset) :=
  match sub with
  | .error e => .error e
  | .ok sa =>
    match r with
    | .error e => .error e
    | .ok ra => .ok (sa ++ ra)

/-- `search_modpack_dir` (src/main.rs:131-154) on the tree model.  For each
entry in order: non-directories are skipped; a directory with a
`modpack.txt` entry is recursed into with the same filter; otherwise a
directory with an `init.lua` entry is a candidate mod — when a filter is
present, the directory's name must be valid Unicode (the `.expect` call,
modelled as `panicked`) and appear in the filter, else the entry is skipped
whole; a directory with neither marker is skipped silently.  In this model
`read_dir` itself always succeeds, so `ioFail` is never produced. -/
def search_modpack_dir (H : List Nat → List Nat) (mods : Option (List String))
    (path : List OsName) : List (OsName × FsNode) → Except WalkFail (List Asset)
  | [] => .ok []
  | (_, FsNode.file _) :: rest => search_modpack_dir H mods path rest
  | (n, FsNode.dir es) :: rest =>
    if hasEntry es "modpack.txt" then
      walkCons (search_modpack_dir H mods (path ++ [n]) es)
        (search_modpack_dir H mods path rest)
    else if hasEntry es "init.lua" then
      match mods with
      | some mod_list =>
        match n with
        | OsName.valid s =>
          if ¬ mod_list.contains s then search_modpack_dir H mods path rest
          else
            walkCons (.ok (search_mod_dir H (path ++ [OsName.valid s]) es))
              (search_modpack_dir H mods path rest)
        | OsName.invalid _ =>
          .error (.panicked "Mod directory name is not valid Unicode")
      | none =>
        walkCons (.ok (search_mod_dir H (path ++ [n]) es))
          (search_modpack_dir H mods path rest)
    else search_modpack_dir H mods path rest

/-- C7: per-entry behavior of `search_modpack_dir` (src/main.rs:131-154).
(1) A directory containing `modpack.txt` is recursed into with the same
filter, whatever its name — modpacks are never filtered by the enablement
set.  (2) A directory containing `init.lua` (and no `modpack.txt`) whose
name is not in a present filter is skipped entirely: the result is that of
the remaining entries alone, for every directory content and every hash
function.  (3) Such a directory is collected via `search_mod_dir` when the
filter is absent, and (4) when the filter contains its name.  (5) A
directory with neither marker is skipped silently, with no error.  (6) A
non-directory entry is ignored. -/
theorem claim_C7_walker (H : List Nat → List Nat) (mods : Option (List String))
    (path : List OsName) (n : OsName) (es rest : List (OsName × FsNode))
    (fl : List String) (s : String) (c : List Nat) :
    (hasEntry es "modpack.txt" = true →
      search_modpack_dir H mods path ((n, FsNode.dir es) :: rest) =
        walkCons (search_modpack_dir H mods (path ++ [n]) es)
          (search_modpack_dir H mods path rest))
    ∧ (hasEntry es "modpack.txt" = false → hasEntry es "init.lua" = true →
      fl.contains s = false →
      search_modpack_dir H (some fl) path ((OsName.valid s, FsNode.dir es) :: rest) =
        search_modpack_dir H (some fl) path rest)
    ∧ (hasEntry es "modpack.txt" = false → hasEntry es "init.lua" = true →
      search_modpack_dir H none path ((n, FsNode.dir es) :: rest) =
        walkCons (.ok (search_mod_dir H (path ++ [n]) es))
          (search_modpack_dir H none path rest))
    ∧ (hasEntry es "modpack.txt" = false → hasEntry es "init.lua" = true →
      fl.contains s = true →
      search_modpack_dir H (some fl) path ((OsName.valid s, FsNode.dir es) :: rest) =
        walkCons (.ok (search_mod_dir H (path ++ [OsName.valid s]) es))
          (search_modpack_dir H (some fl) path rest))
    ∧ (hasEntry es "modpack.txt" = false → hasEntry es "init.lua" = false →
      search_modpack_dir H mods path ((n, FsNode.dir es) :: rest) =
        search_modpack_dir H mods path rest)
    ∧ (search_modpack_dir H mods path ((n, FsNode.file c) :: rest) =
        search_modpack_dir H mods path rest) := by
  refine ⟨?_, ?_, ?_, ?_, ?_, ?_⟩
  · intro h1
    rw [search_modpack_dir.eq_def]
    simp only [h1, if_true]
  · intro h1 h2 h3
    rw [search_modpack_dir.eq_def]
    simp only [h1, h2, h3, Bool.false_eq_true, if_false, if_true, not_false_iff]
  · intro h1 h2
    rw [search_modpack_dir.eq_def]
    simp only [h1, h2, Bool.false_eq_true, if_false, if_true]
  · intro h1 h2 h3
    rw [search_modpack_dir.eq_def]
    simp only [h1, h2, h3, Bool.false_eq_true, if_false, if_true, not_true_eq_false]
  · intro h1 h2
    rw [search_modpack_dir.eq_def]
    simp only [h1, h2, Bool.false_eq_true, if_false]
  · rw [search_modpack_dir.eq_def]

def w7_tex : List (OsName × FsNode) := [(.valid "t.png", .file [1])]

def w7_mod : List (OsName × FsNode) :=
  [(.valid "init.lua", .file []), (.valid "textures", .dir w7_tex)]

/-- Witness for C7: the mod directory `m` is skipped entirely when the
filter does not contain `m`, and collected when it does. -/
theorem claim_C7_walker_w :
    hasEntry w7_mod "modpack.txt" = false
    ∧ hasEntry w7_mod "init.lua" = true
    ∧ search_modpack_dir (fun c => c) (some ["other"]) []
        [(OsName.valid "m", FsNode.dir w7_mod)] =
      search_modpack_dir (fun c => c) (some ["other"]) [] []
    ∧ search_modpack_dir (fun c => c) (some ["m"]) []
        [(OsName.valid "m", FsNode.dir w7_mod)] =
      walkCons (.ok (search_mod_dir (fun c => c) ([] ++ [OsName.valid "m"]) w7_mod))
        (search_modpack_dir (fun c => c) (some ["m"]) [] []) :=
  ⟨by decide, by decide,
    (claim_C7_walker (fun c => c) (some ["other"]) [] (OsName.valid "m") w7_mod []
      ["other"] "m" []).2.1 (by decide) (by decide) (by decide),
    (claim_C7_walker (fun c => c) (some ["m"]) [] (OsName.valid "m") w7_mod []
      ["m"] "m" []).2.2.2.1 (by decide) (by decide) (by decide)⟩

theorem search_media_dir_mem (H : List Nat → List Nat) (p : List OsName) :
    ∀ (es : List (OsName × FsNode)) (a : Asset),
    a ∈ search_media_dir H p es ↔
      ∃ n c, (n, FsNode.file c) ∈ es ∧ a = ⟨p ++ [n], H c⟩
  | [], a => by simp [search_media_dir]
  | (n, FsNode.file c) :: rest, a => by
    rw [search_media_dir, List.mem_cons, search_media_dir_mem H p rest]
    constructor
    · rintro (rfl | ⟨m, d, hm, rfl⟩)
      · exact ⟨n, c, List.mem_cons_self _ _, rfl⟩
      · exact ⟨m, d, List.mem_cons_of_mem _ hm, rfl⟩
    · rintro ⟨m, d, hm, rfl⟩
      rcases List.mem_cons.mp hm with heq | hm'
      · rw [Prod.mk.injEq] at heq
        obtain ⟨rfl, hf⟩ := heq
        injection hf with hfc
        subst hfc
        exact Or.inl rfl
      · exact Or.inr ⟨m, d, hm', rfl⟩
  | (m, FsNode.dir es') :: rest, a => by
    rw [search_media_dir, search_media_dir_mem H p rest]
    constructor
    · rintro ⟨n, c, hm, rfl⟩
      exact ⟨n, c, List.mem_cons_of_mem _ hm, rfl⟩
    · rintro ⟨n, c, hm, rfl⟩
      rcases List.mem_cons.mp hm with heq | hm'
      · rw [Prod.mk.injEq] at heq
        exact (FsNode.noConfusion heq.2)
      · exact ⟨n, c, hm', rfl⟩

/-- C8: `search_mod_dir` considers exactly the fixed subfolders `textures`,
`models`, `sounds` that exist as subdirectories of the mod directory, in
that order, and emits one Asset per direct file entry of each (path =
mod/media-dir/file-name, hash of the file's bytes).  The membership
characterisation shows that nothing else contributes: names that are
missing or are not directories yield nothing, and only direct `file`
entries of a media folder — never entries nested deeper — produce Assets. -/
theorem claim_C8_search_mod_dir (H : List Nat → List Nat) (path : List OsName)
    (es : List (OsName × FsNode)) :
    (∀ a : Asset, a ∈ search_mod_dir H path es ↔
      ∃ d, d ∈ MEDIA_DIRS ∧ ∃ es', getDir es d = some es' ∧
        ∃ n c, (n, FsNode.file c) ∈ es' ∧ a = ⟨path ++ [OsName.valid d, n], H c⟩)
    ∧ search_mod_dir H path es =
      (match getDir es "textures" with
       | some es' => search_media_dir H (path ++ [OsName.valid "textures"]) es'
       | none => []) ++
      (match getDir es "models" with
       | some es' => search_media_dir H (path ++ [OsName.valid "models"]) es'
       | none => []) ++
      (match getDir es "sounds" with
       | some es' => search_media_dir H (path ++ [OsName.valid "sounds"]) es'
       | none => []) := by
  constructor
  · intro a
    rw [search_mod_dir, List.mem_flatten]
    constructor
    · rintro ⟨l, hl, hal⟩
      obtain ⟨d, hd, rfl⟩ := List.mem_map.mp hl
      cases hg : getDir es d with
      | none => rw [hg] at hal; cases hal
      | some es' =>
        rw [hg] at hal
        obtain ⟨n, c, hm, rfl⟩ := (search_media_dir_mem H _ es' a).mp hal
        exact ⟨d, hd, es', hg, n, c, hm, by simp⟩
    · rintro ⟨d, hd, es', hg, n, c, hm, rfl⟩
      refine ⟨search_media_dir H (path ++ [OsName.valid d]) es', ?_, ?_⟩
      · exact List.mem_map.mpr ⟨d, hd, by rw [hg]⟩
      · exact (search_media_dir_mem H _ es' _).mpr ⟨n, c, hm, by simp⟩
  · rw [search_mod_dir, MEDIA_DIRS]
    simp [List.append_assoc]

/-- Whether no candidate mod directory — an entry having `init.lua` and not
`modpack.txt` — reachable by the walk (which recurses through modpack
directories but not into skipped or collected mods) has a name that is not
valid Unicode.  This mirrors exactly the reachability of the `.expect`
calls in `search_modpack_dir` (src/main.rs:139-148). -/
def noInvalidCandidate : List (OsName × FsNode) → Bool
  | [] => true
  | (_, FsNode.file _) :: rest => noInvalidCandidate rest
  | (n, FsNode.dir es) :: rest =>
    if hasEntry es "modpack.txt" then noInvalidCandidate es && noInvalidCandidate rest
    else if hasEntry es "init.lua" then
      (match n with
       | OsName.valid _ => true
       | OsName.invalid _ => false) && noInvalidCandidate rest
    else noInvalidCandidate rest

theorem isOk_error (e : WalkFail) :
    (Except.error e : Except WalkFail (List Asset)).isOk = false := rfl

theorem isOk_ok (a : List Asset) :
    (Except.ok a : Except WalkFail (List Asset)).isOk = true := rfl

theorem walkCons_isOk (sub r : Except WalkFail (List Asset)) :
    (walkCons sub r).isOk = (sub.isOk && r.isOk) := by
  cases sub <;> cases r <;> rfl

theorem walkCons_eq_error {sub r : Except WalkFail (List Asset)} {e : WalkFail}
    (h : walkCons sub r = .error e) : sub = .error e ∨ r = .error e := by
  cases sub <;> cases r <;> simp_all [walkCons]

theorem search_none_isOk (H : List Nat → List Nat) :
    ∀ (path : List OsName) (es : List (OsName × FsNode)),
      (search_modpack_dir H none path es).isOk = true := by
  intro path es
  induction path, es using search_modpack_dir.induct H none with
  | case1 p => rw [search_modpack_dir.eq_def]; rfl
  | case2 p n c rest ih => rw [search_modpack_dir.eq_def]; exact ih
  | case3 p fst entries rest hmp ihsub ihrest =>
    rw [search_modpack_dir.eq_def]
    simp only [hmp, if_true, walkCons_isOk, ihsub, ihrest, Bool.and_self]
  | case4 p entries rest hmp hinit mod_list hx s hns ih => exact Option.noConfusion hx
  | case5 p entries rest hmp hinit mod_list hx s hnns ih => exact Option.noConfusion hx
  | case6 p entries rest hmp hinit mod_list hx tag => exact Option.noConfusion hx
  | case7 p fst entries rest hmp hinit hx ih =>
    rw [search_modpack_dir.eq_def]
    simp only [hmp, hinit, if_false, if_true, Bool.false_eq_true, walkCons_isOk,
      isOk_ok, ih, Bool.and_self, Bool.true_and]
  | case8 p fst entries rest hmp hinit ih =>
    rw [search_modpack_dir.eq_def]
    simp only [hmp, hinit, if_false, Bool.false_eq_true]
    exact ih

theorem search_some_isOk (H : List Nat → List Nat) (fl : List String) :
    ∀ (path : List OsName) (es : List (OsName × FsNode)),
      (search_modpack_dir H (some fl) path es).isOk = noInvalidCandidate es := by
  intro path es
  induction path, es using search_modpack_dir.induct H (some fl) with
  | case1 p => rw [search_modpack_dir.eq_def, noInvalidCandidate.eq_def]; rfl
  | case2 p n c rest ih =>
    rw [search_modpack_dir.eq_def, noInvalidCandidate.eq_def]
    exact ih
  | case3 p fst entries rest hmp ihsub ihrest =>
    rw [search_modpack_dir.eq_def, noInvalidCandidate.eq_def]
    simp only [hmp, if_true, walkCons_isOk, ihsub, ihrest]
  | case4 p entries rest hmp hinit mod_list hx s hns ih =>
    injection hx with hx'
    subst hx'
    rw [search_modpack_dir.eq_def, noInvalidCandidate.eq_def]
    rw [Bool.not_eq_true] at hmp
    simp only [hmp, hinit, if_false, if_true, Bool.false_eq_true, if_pos hns,
      Bool.true_and]
    exact ih
  | case5 p entries rest hmp hinit mod_list hx s hnns ih =>
    injection hx with hx'
    subst hx'
    rw [search_modpack_dir.eq_def, noInvalidCandidate.eq_def]
    rw [Bool.not_eq_true] at hmp
    simp only [hmp, hinit, if_false, if_true, Bool.false_eq_true, if_neg hnns,
      walkCons_isOk, isOk_ok, Bool.true_and]
    exact ih
  | case6 p entries rest hmp hinit mod_list hx tag =>
    injection hx with hx'
    subst hx'
    rw [search_modpack_dir.eq_def, noInvalidCandidate.eq_def]
    rw [Bool.not_eq_true] at hmp
    simp only [hmp, hinit, if_false, if_true, Bool.false_eq_true, isOk_error,
      Bool.false_and]
  | case7 p fst entries rest hmp hinit hx ih => exact Option.noConfusion hx
  | case8 p fst entries rest hmp hinit ih =>
    rw [search_modpack_dir.eq_def, noInvalidCandidate.eq_def]
    rw [Bool.not_eq_true] at hmp
    rw [Bool.not_eq_true] at hinit
    simp only [hmp, hinit, if_false, Bool.false_eq_true]
    exact ih

theorem search_error_panicked (H : List Nat → List Nat) (mods : Option (List String)) :
    ∀ (path : List OsName) (es : List (OsName × FsNode)) (e : WalkFail),
      search_modpack_dir H mods path es = .error e →
      e = WalkFail.panicked "Mod directory name is not valid Unicode" := by
  intro path es
  induction path, es using search_modpack_dir.induct H mods with
  | case1 p =>
    intro e h
    rw [search_modpack_dir.eq_def] at h
    exact Except.noConfusion h
  | case2 p n c rest ih =>
    intro e h
    rw [search_modpack_dir.eq_def] at h
    exact ih e h
  | case3 p fst entries rest hmp ihsub ihrest =>
    intro e h
    rw [search_modpack_dir.eq_def] at h
    simp only [hmp, if_true] at h
    rcases walkCons_eq_error h with h' | h'
    · exact ihsub e h'
    · exact ihrest e h'
  | case4 p entries rest hmp hinit mod_list hx s hns ih =>
    subst hx
    intro e h
    rw [search_modpack_dir.eq_def] at h
    rw [Bool.not_eq_true] at hmp
    simp only [hmp, hinit, if_false, if_true, Bool.false_eq_true, if_pos hns] at h
    exact ih e h
  | case5 p entries rest hmp hinit mod_list hx s hnns ih =>
    subst hx
    intro e h
    rw [search_modpack_dir.eq_def] at h
    rw [Bool.not_eq_true] at hmp
    simp only [hmp, hinit, if_false, if_true, Bool.false_eq_true, if_neg hnns] at h
    rcases walkCons_eq_error h with h' | h'
    · cases h'
    · exact ih e h'
  | case6 p entries rest hmp hinit mod_list hx tag =>
    subst hx
    intro e h
    rw [search_modpack_dir.eq_def] at h
    rw [Bool.not_eq_true] at hmp
    simp only [hmp, hinit, if_false, if_true, Bool.false_eq_true] at h
    injection h with h'
    exact h'.symm
  | case7 p fst entries rest hmp hinit hx ih =>
    subst hx
    intro e h
    rw [search_modpack_dir.eq_def] at h
    rw [Bool.not_eq_true] at hmp
    simp only [hmp, hinit, if_false, if_true, Bool.false_eq_true] at h
    rcases walkCons_eq_error h with h' | h'
    · cases h'
    · exact ih e h'
  | case8 p fst entries rest hmp hinit ih =>
    intro e h
    rw [search_modpack_dir.eq_def] at h
    rw [Bool.not_eq_true] at hmp
    rw [Bool.not_eq_true] at hinit
    simp only [hmp, hinit, if_false, Bool.false_eq_true] at h
    exact ih e h

/-- C10: when an enablement filter is present, the walker fails — via the
`.expect` panic (src/main.rs:139-148), modelled as `WalkFail.panicked`,
which aborts the process rather than returning an `IoError` — exactly when
some reachable candidate mod directory has a name that is not valid
Unicode; with no filter it never fails (whatever the names); and every
failure it can return is that panic, never `ioFail`.  (An entry produced by
`read_dir` always has a file name, so of the two `.expect` calls only the
invalid-Unicode one is reachable, as the model reflects.) -/
theorem claim_C10_walker_panics (H : List Nat → List Nat) (fl : List String)
    (path : List OsName) (es : List (OsName × FsNode)) :
    (search_modpack_dir H none path es).isOk = true
    ∧ (search_modpack_dir H (some fl) path es).isOk = noInvalidCandidate es
    ∧ ∀ mods e, search_modpack_dir H mods path es = .error e →
        e = WalkFail.panicked "Mod directory name is not valid Unicode" :=
  ⟨search_none_isOk H path es, search_some_isOk H fl path es,
    fun mods e h => search_error_panicked H mods path es e h⟩

/-- A tree whose only entry is a candidate mod directory with a
non-Unicode name. -/
def esBad : List (OsName × FsNode) :=
  [(OsName.invalid 0, FsNode.dir [(OsName.valid "init.lua", FsNode.file [])])]

/-- Witness for C10: on `esBad` with a filter present the walk fails with
the panic message of the `.expect` call. -/
theorem claim_C10_walker_panics_w :
    noInvalidCandidate esBad = false
    ∧ (search_modpack_dir (fun c => c) (some ["m"]) [] esBad).isOk = false
    ∧ search_modpack_dir (fun c => c) (some ["m"]) [] esBad =
        .error (WalkFail.panicked "Mod directory name is not valid Unicode")
    ∧ (search_modpack_dir (fun c => c) none [] esBad).isOk = true := by
  have h1 : noInvalidCandidate esBad = false := by
    simp [noInvalidCandidate, hasEntry, esBad]
  have h3 : search_modpack_dir (fun c => c) (some ["m"]) [] esBad =
      .error (WalkFail.panicked "Mod directory name is not valid Unicode") := by
    simp [search_modpack_dir, hasEntry, esBad]
  refine ⟨h1, ?_, h3, ?_⟩
  · rw [(claim_C10_walker_panics (fun c => c) ["m"] [] esBad).2.1, h1]
  · exact (claim_C10_walker_panics (fun c => c) ["m"] [] esBad).1

/-- The successive chunks the 8192-byte read buffer produces from a byte
stream (`let mut buf = [0u8; 8192]` and the read loop, src/main.rs:93-102):
every chunk is full except possibly the last, and the loop stops at the
first empty read. -/
def chunks8192 (l : List Nat) : List (List Nat) :=
  if h : l = [] then []
  else l.take 8192 :: chunks8192 (l.drop 8192)
termination_by l.length
decreasing_by
  simp only [List.length_drop]
  have := List.length_pos.mpr h
  omega

/-- Modelled from the spec: the interface of the external `sha1` crate —
a digest state, a per-byte update step (`Sha1::update` on a buffer folds
the step over the buffer's bytes), the initial state, and the final
`digest().bytes()` extraction.  The crate's internals are outside the
repository; only the streaming protocol around it is in src. -/
structure Sha1Model (S : Type) where
  upd : S → Nat → S
  s0 : S
  dg : S → List Nat

/-- `hash.update(&buf[..len])` (src/main.rs:99): fold the byte step over
one chunk. -/
def sha1_update {S : Type} (M : Sha1Model S) (st : S) (buf : List Nat) : S :=
  buf.foldl M.upd st

/-- The streaming loop of `hash_file` (src/main.rs:92-104) applied to a
file's byte content: feed the 8 KiB chunks to the digest in order and
return the digest bytes.  Path, mtime and permissions are not inputs. -/
def hash_file {S : Type} (M : Sha1Model S) (content : List Nat) : List Nat :=
  M.dg ((chunks8192 content).foldl (sha1_update M) M.s0)

mutual

/-- Resolve a path in the modelled filesystem to a file's byte contents
(`File::open` succeeding exactly when the path names a file). -/
def readNode : FsNode → List OsName → Option (List Nat)
  | FsNode.file c, [] => some c
  | FsNode.file _, _ :: _ => none
  | FsNode.dir _, [] => none
  | FsNode.dir es, n :: p => readEntries es n p

/-- Resolve one path component among a directory's entries. -/
def readEntries : List (OsName × FsNode) → OsName → List OsName → Option (List Nat)
  | [], _, _ => none
  | (m, sub) :: rest, n, p =>
    if m = n then readNode sub p else readEntries rest n p

end

/-- `hash_file` on the file at a path of the modelled filesystem. -/
def hash_file_at {S : Type} (M : Sha1Model S) (root : FsNode) (p : List OsName) :
    Option (List Nat) :=
  (readNode root p).map (hash_file M)

theorem chunks8192_flatten (l : List Nat) : (chunks8192 l).flatten = l := by
  induction l using chunks8192.induct with
  | case1 => simp [chunks8192]
  | case2 l h ih =>
    rw [chunks8192, dif_neg h, List.flatten_cons, ih, List.take_append_drop]

theorem hash_file_eq_foldl {S : Type} (M : Sha1Model S) (c : List Nat) :
    hash_file M c = M.dg (c.foldl M.upd M.s0) := by
  rw [hash_file]
  congr 1
  conv_rhs => rw [← chunks8192_flatten c]
  rw [List.foldl_flatten]
  rfl

/-- C9: the content hash is a deterministic function of the byte sequence
alone.  Streaming the bytes through the digest in fixed 8 KiB chunks
produces exactly the fold of the per-byte step over the whole sequence
(the chunking is invisible), so any two paths whose files hold identical
bytes receive identical identifiers — the paths play no role, and mtime or
permissions are not inputs of `hash_file` at all. -/
theorem claim_C9_hash_deterministic {S : Type} (M : Sha1Model S) (root : FsNode)
    (p₁ p₂ : List OsName) (c : List Nat)
    (h₁ : readNode root p₁ = some c) (h₂ : readNode root p₂ = some c) :
    hash_file M c = M.dg (c.foldl M.upd M.s0)
    ∧ hash_file_at M root p₁ = hash_file_at M root p₂
    ∧ hash_file_at M root p₁ = some (M.dg (c.foldl M.upd M.s0)) := by
  refine ⟨hash_file_eq_foldl M c, ?_, ?_⟩
  · rw [hash_file_at, hash_file_at, h₁, h₂]
  · rw [hash_file_at, h₁, Option.map_some', hash_file_eq_foldl M c]

def w9_root : FsNode :=
  FsNode.dir [(OsName.valid "a", FsNode.file [1, 2]),
    (OsName.valid "b", FsNode.file [1, 2])]

def w9_M : Sha1Model Nat := ⟨fun s b => s * 256 + b, 0, fun s => [s]⟩

/-- Witness for C9: two different paths with identical bytes hash alike. -/
theorem claim_C9_hash_deterministic_w :
    readNode w9_root [OsName.valid "a"] = some [1, 2]
    ∧ readNode w9_root [OsName.valid "b"] = some [1, 2]
    ∧ hash_file_at w9_M w9_root [OsName.valid "a"] =
        hash_file_at w9_M w9_root [OsName.valid "b"] := by
  have h1 : readNode w9_root [OsName.valid "a"] = some [1, 2] := by
    simp [readNode, readEntries, w9_root]
  have h2 : readNode w9_root [OsName.valid "b"] = some [1, 2] := by
    simp [readNode, readEntries, w9_root]
  exact ⟨h1, h2,
    (claim_C9_hash_deterministic w9_M w9_root [OsName.valid "a"] [OsName.valid "b"]
      [1, 2] h1 h2).2.1⟩

end MTMedia
